import Mathlib

/-!
Verification development for the games-scraper repository (file src/datos.py).

The Python program is shallowly embedded: pure helpers (money_to_float,
normalize_game_name) become Lean functions on strings, and the effectful
orchestration code (fetch, scrape_site, run) becomes deterministic functions
over an explicit environment record that supplies everything the outside world
chooses: seed-discovery results, fetch-and-extract outcomes per task, clock
readings, random draws, and whether an unrecoverable internal fault strikes a
given orchestrator invocation.  Machine floats in the source only ever carry
exact decimal amounts, so prices are modelled as rationals.
-/

/- ============ character-level helpers used by the string functions ============ -/

/-- Model of Python str.lower for the characters handled by this program:
basic-latin case mapping (Lean Char.toLower), which agrees with Python on all
ASCII input and on the symbol characters the scraper strips. -/
def pyLower (c : Char) : Char := c.toLower

/-- Model of Python str.upper, applied in the source only to the ASCII site
keys: character-wise basic-latin upcasing. -/
def pyUpper (s : String) : String := ⟨s.data.map Char.toUpper⟩

/-- The character class removed by normalize_game_name, from the regular
expression [™®©:ʼ-] in the source (the fifth element is the ASCII apostrophe,
written here by code point). -/
def isStripSym (c : Char) : Bool :=
  c = '™' || c = '®' || c = '©' || c = ':' || c = Char.ofNat 39 || c = '-'

/-- Model of the Python regex class \s (and of str.strip): ASCII whitespace,
the C1 controls Python includes, and the Unicode space separators. -/
def isPyWs (c : Char) : Bool :=
  c.toNat ∈ [9, 10, 11, 12, 13, 28, 29, 30, 31, 32, 133, 160, 5760,
    8192, 8193, 8194, 8195, 8196, 8197, 8198, 8199, 8200, 8201, 8202,
    8232, 8233, 8239, 8287, 12288]

/-- One step of re.sub applied with pattern \s+ and replacement a single
space: every maximal whitespace run collapses to one space character. -/
def collapseWs : List Char → List Char
  | [] => []
  | [c] => if isPyWs c then [' '] else [c]
  | c :: d :: rest =>
    if isPyWs c && isPyWs d then collapseWs (d :: rest)
    else (if isPyWs c then ' ' else c) :: collapseWs (d :: rest)

/-- Removal of a trailing whitespace run, half of Python str.strip. -/
def dropTrailingWs : List Char → List Char
  | [] => []
  | c :: rest =>
    match dropTrailingWs rest with
    | [] => if isPyWs c then [] else [c]
    | r => c :: r

/-- Python str.strip: drop leading and trailing whitespace. -/
def stripWs (l : List Char) : List Char :=
  dropTrailingWs (l.dropWhile isPyWs)

/-- The character pipeline of normalize_game_name: lower-case, delete the
symbol class, collapse whitespace runs to single spaces, strip the ends. -/
def normChars (l : List Char) : List Char :=
  stripWs (collapseWs ((l.map pyLower).filter (fun c => !isStripSym c)))

/-- normalize_game_name from src/datos.py: returns the empty string on falsy
input, otherwise lower-cases, strips the symbol class, collapses whitespace
and trims the result. -/
def normalize_game_name (s : String) : String :=
  if s = "" then "" else ⟨normChars s.data⟩

/- ============ decimal rendering of naturals (Python str(n)) ============ -/

/-- The character for a single decimal digit. -/
def digitChar (d : ℕ) : Char := Char.ofNat (48 + d)

/-- Decimal digits of n, least significant first; the first argument is
structural fuel, always called with fuel at least n. -/
def natStrAux : ℕ → ℕ → List Char
  | 0, _ => []
  | fuel + 1, n => if n = 0 then [] else digitChar (n % 10) :: natStrAux fuel (n / 10)

/-- Model of Python str applied to a non-negative integer. -/
def natStr (n : ℕ) : String :=
  if n = 0 then "0" else ⟨(natStrAux n n).reverse⟩

/- ============ money_to_float ============ -/

/-- The characters kept by the cleaning regex [^0-9.,] of money_to_float. -/
def isMoneyChar (c : Char) : Bool := c.isDigit || c = '.' || c = ','

/-- Split a character list at every dot, keeping empty segments, as Python
float parsing distinguishes the parts around the decimal point. -/
def splitDots : List Char → List (List Char)
  | [] => [[]]
  | c :: rest =>
    match splitDots rest with
    | [] => [[]]
    | p :: ps => if c = '.' then [] :: p :: ps else (c :: p) :: ps

/-- Value of a digit string read in base ten. -/
def digitsVal (l : List Char) : ℕ :=
  l.foldl (fun a c => 10 * a + (c.toNat - 48)) 0

/-- Model of Python float() on the cleaned strings money_to_float builds:
digits with at most one dot and at least one digit parse to their exact
decimal value, anything else raises and is mapped to none. -/
def pyFloat (s : List Char) : Option ℚ :=
  match splitDots s with
  | [a] => if a ≠ [] ∧ a.all Char.isDigit then some (digitsVal a) else none
  | [a, b] =>
    if (a ++ b) ≠ [] ∧ (a ++ b).all Char.isDigit then
      some ((digitsVal a : ℚ) + (digitsVal b : ℚ) / (10 : ℚ) ^ b.length)
    else none
  | _ => none

/-- money_to_float from src/datos.py: strip everything but digits, dots and
commas; with both separators present delete the commas, with only commas turn
them into dots; then parse as a float, with parse failure giving none. -/
def money_to_float (txt : String) : Option ℚ :=
  if txt = "" then none
  else
    let clean := txt.data.filter isMoneyChar
    if clean = [] then none
    else
      let clean2 :=
        if (',' ∈ clean) ∧ ('.' ∈ clean) then clean.filter (fun c => !(c = ','))
        else if ',' ∈ clean then clean.map (fun c => if c = ',' then '.' else c)
        else clean
      pyFloat clean2

/- ============ fetch ============ -/

/-- What one HTTP attempt inside fetch can observe: a 200 response with a
body, a 429 response, any other status, an asyncio timeout, or any other
transport exception.  The environment chooses the outcome of each attempt. -/
inductive FetchOutcome
  | ok (body : String)
  | rateLimited
  | badStatus
  | timedOut
  | failed
deriving DecidableEq

/-- Observable result of fetch: the returned content, the sleep durations of
the failed attempts in order, and how many attempts were made. -/
structure FetchResult where
  content : Option String
  sleeps : List ℤ
  attempts : ℕ
deriving DecidableEq

/-- The retry loop of fetch: remaining attempts, current attempt index.  On a
200 the body is returned at once; a 429 sleeps 3 * (attempt + 1); any other
status or exception sleeps the fixed short time from the source and retries. -/
def fetchGo (oracle : ℕ → FetchOutcome) : ℕ → ℕ → FetchResult
  | 0, _ => ⟨none, [], 0⟩
  | r + 1, a =>
    match oracle a with
    | .ok body => ⟨some body, [], 1⟩
    | .rateLimited =>
      let rest := fetchGo oracle r (a + 1)
      ⟨rest.content, (3 * ((a : ℤ) + 1)) :: rest.sleeps, rest.attempts + 1⟩
    | .badStatus =>
      let rest := fetchGo oracle r (a + 1)
      ⟨rest.content, 1 :: rest.sleeps, rest.attempts + 1⟩
    | .timedOut =>
      let rest := fetchGo oracle r (a + 1)
      ⟨rest.content, 2 :: rest.sleeps, rest.attempts + 1⟩
    | .failed =>
      let rest := fetchGo oracle r (a + 1)
      ⟨rest.content, 1 :: rest.sleeps, rest.attempts + 1⟩

/-- fetch from src/datos.py: five attempts, each observing the outcome the
environment supplies for that attempt; exceptions are absorbed into outcomes,
so the function is total, which models that fetch never raises. -/
def fetch (oracle : ℕ → FetchOutcome) : FetchResult :=
  fetchGo oracle 5 0

/- ============ the item record and the environment ============ -/

/-- An item record as built by the parsers and synthetic generators of the
source; prices and durations are exact decimals, so rationals model them. -/
structure Game where
  name : String
  price_regular : ℚ
  price_discount : ℚ
  rating : ℕ
  platforms : List String
  image_url : String
  distribution_type : String
  howlongtobeat : ℚ
  site : String
  url : String
deriving DecidableEq

/-- The randomly drawn fields of one synthetic record (price, price, rating,
distribution kind, duration), supplied by the environment in place of the
random module. -/
structure SynthVals where
  price_regular : ℚ
  price_discount : ℚ
  rating : ℕ
  distribution_type : String
  howlongtobeat : ℚ
deriving DecidableEq

/-- Everything the outside world decides during one run.  Clock readings and
the time budget enter the program only through addition and order
comparisons, so they are modelled as integer timestamps.  worker gives the
result of the fetch-plus-extract task at a given (site, batch, position):
none covers an invalid page, the deadline short-circuit inside the worker,
and a task abandoned by the batch timeout, all of which contribute nothing.
fault tells whether an unrecoverable internal fault (the only way into the
except branch of scrape_site, per the source all network errors are absorbed
earlier) strikes that invocation; runFault likewise for the outer run. -/
structure Env where
  seeds : String → List String
  worker : String → ℕ → ℕ → Option Game
  clock : String → ℕ → ℤ
  checkTime : ℕ → ℤ
  startTime : ℤ
  fault : String → Bool
  runFault : Bool
  synthVals : String → ℕ → SynthVals
  fbVals : String → ℕ → SynthVals
  toVals : String → ℕ → SynthVals
  buVals : String → ℕ → SynthVals

/-- The per-source quotas, dictionary TARGET of the source. -/
def TARGET : String → ℕ
  | "steam" => 80
  | "gog" => 80
  | "gmg" => 50
  | _ => 0

/-- The configured source order of the run loop. -/
def SITES : List String := ["steam", "gog", "gmg"]

/-- Normalized identity of a record. -/
def gameKey (g : Game) : String := normalize_game_name g.name

/- ============ scrape_site ============ -/

/-- Mutable state of the harvesting loop: accepted records in acceptance
order, the run-local seen set, and the shared dedup index. -/
structure HState where
  results : List Game
  seen : Finset String
  existing : Finset String

/-- Processing of one completed task result: a record with a truthy name
whose normalized identity is in neither set is appended and both sets learn
the identity; everything else is discarded silently. -/
def acceptTask (st : HState) (res : Option Game) : HState :=
  match res with
  | none => st
  | some g =>
    if g.name = "" then st
    else
      let k := normalize_game_name g.name
      if k ∈ st.seen ∨ k ∈ st.existing then st
      else ⟨st.results ++ [g], insert k st.seen, insert k st.existing⟩

/-- One batch: every task of the batch runs and its outcome is folded into
the state.  Completion order is environment-chosen through wk, and a task
missing from the done set behaves exactly like one that returned none. -/
def runBatch (wk : ℕ → Option Game) (n : ℕ) (st : HState) : HState :=
  (List.range n).foldl (fun s i => acceptTask s (wk i)) st

/-- The while loop of scrape_site.  Arguments after the deadline: number of
seed URLs (which is also max_attempts), structural fuel, current seed index,
attempts so far, batch counter, state.  The loop body takes the next
batch of size min(3 * concurrency, remaining), runs it, and repeats; the
source also breaks as soon as the quota is reached, which coincides with the
loop condition, and sleeps briefly, which has no observable effect here.
Fuel seedCount + 1 is enough for every terminating execution; with
concurrency zero the source would spin until the deadline passes, and the
model then simply stops. -/
def harvestLoop (wk : ℕ → ℕ → Option Game) (clock : ℕ → ℤ)
    (target conc : ℕ) (deadline : ℤ) (seedCount : ℕ) :
    ℕ → ℕ → ℕ → ℕ → HState → HState
  | 0, _, _, _, st => st
  | fuel + 1, idx, attempts, k, st =>
    if st.results.length < target ∧ idx < seedCount ∧
        clock k < deadline ∧ attempts < seedCount then
      let bs := min (conc * 3) (seedCount - idx)
      let st2 := runBatch (wk k) bs st
      harvestLoop wk clock target conc deadline seedCount fuel
        (idx + bs) (attempts + bs) (k + 1) st2
    else st

/-- Name stem of the backfill records of a source. -/
def synthStem (site : String) : String :=
  "Exclusivo " ++ pyUpper site ++ " Juego "

/-- The inner while True search of the synthetic generators: starting at
counter c, advance until the candidate name built from the stem is in
neither set.  The first argument is structural fuel; the callers pass one
more than the size of the set being avoided, which always suffices. -/
def freshFrom (p : String) (bad : Finset String) : ℕ → ℕ → ℕ
  | 0, c => c
  | fuel + 1, c =>
    if normalize_game_name (p ++ natStr c) ∈ bad then freshFrom p bad fuel (c + 1)
    else c

/-- One synthetic backfill record of scrape_site. -/
def mkSynthGame (env : Env) (site : String) (c : ℕ) : Game :=
  let v := env.synthVals site c
  { name := synthStem site ++ natStr c
    price_regular := v.price_regular
    price_discount := v.price_discount
    rating := v.rating
    platforms := ["PC"]
    image_url := "https://via.placeholder.com/460x215/333333/ffffff?text=Juego"
    distribution_type := v.distribution_type
    howlongtobeat := v.howlongtobeat
    site := site
    url := "https://example.com/game/" ++ natStr c }

/-- The backfill loop body: m more records to create, current counter; each
iteration finds the next fresh counter, appends the record, and adds its
identity to both sets. -/
def backfillGo (env : Env) (site : String) : ℕ → ℕ → HState → HState
  | 0, _, st => st
  | m + 1, counter, st =>
    let bad := st.seen ∪ st.existing
    let c := freshFrom (synthStem site) bad (bad.card + 1) counter
    let g := mkSynthGame env site c
    let k := normalize_game_name g.name
    backfillGo env site m (c + 1) ⟨st.results ++ [g], insert k st.seen, insert k st.existing⟩

/-- The Relleno sintético block: fill up to the quota when short. -/
def backfill (env : Env) (site : String) (target : ℕ) (st : HState) : HState :=
  if st.results.length < target then
    backfillGo env site (target - st.results.length) 1 st
  else st

/-- The source recognizes exactly these site keys before seeding. -/
def knownSite (site : String) : Bool :=
  site = "steam" || site = "gog" || site = "gmg"

/-- One record of the except-branch fallback list of scrape_site; its name is
built directly from the loop index with no freshness search. -/
def fallbackGame (env : Env) (site : String) (i : ℕ) : Game :=
  let v := env.fbVals site i
  { name := "Juego " ++ pyUpper site ++ " #" ++ natStr (i + 1)
    price_regular := v.price_regular
    price_discount := v.price_discount
    rating := v.rating
    platforms := ["PC"]
    image_url := "https://via.placeholder.com/460x215/333333/ffffff?text=Juego"
    distribution_type := v.distribution_type
    howlongtobeat := v.howlongtobeat
    site := site
    url := "https://example.com/game/" ++ natStr i }

/-- The all-synthetic list the except branch of scrape_site returns. -/
def fallbackList (env : Env) (site : String) (target : ℕ) : List Game :=
  (List.range target).map (fallbackGame env site)

/-- scrape_site from src/datos.py, returning the produced list together with
the updated shared dedup index.  An unrecoverable fault is modelled as
striking at the orchestrator boundary, landing in the except branch, which
builds the fallback list and neither reads nor writes the shared index.
Otherwise: seed discovery (whose outcome the environment supplies), an early
empty return when no seeds or an unknown site, the batch loop, the synthetic
backfill, and finally truncation to the quota. -/
def scrape_site (env : Env) (site : String) (target conc : ℕ) (deadline : ℤ)
    (existing : Finset String) : List Game × Finset String :=
  if env.fault site then (fallbackList env site target, existing)
  else if !knownSite site then ([], existing)
  else
    let seeds := env.seeds site
    if seeds.isEmpty then ([], existing)
    else
      let n := seeds.length
      let st := harvestLoop (env.worker site) (env.clock site) target conc deadline n
        (n + 1) 0 0 0 ⟨[], ∅, existing⟩
      let st2 := backfill env site target st
      (st2.results.take target, st2.existing)

/- ============ run ============ -/

/-- Name stem of the timeout-path synthetic records of the run loop. -/
def timeoutStem (site : String) : String :=
  "Timeout " ++ pyUpper site ++ " Juego "

/-- One synthetic record of the timeout path. -/
def mkTimeoutGame (env : Env) (site : String) (c : ℕ) : Game :=
  let v := env.toVals site c
  { name := timeoutStem site ++ natStr c
    price_regular := v.price_regular
    price_discount := v.price_discount
    rating := v.rating
    platforms := ["PC"]
    image_url := "https://via.placeholder.com/460x215/333333/ffffff?text=Juego"
    distribution_type := v.distribution_type
    howlongtobeat := v.howlongtobeat
    site := site
    url := "https://example.com/game/" ++ natStr c }

/-- The timeout branch of the run loop: append quota-many synthetics, each
with a name fresh for the shared index, which learns each identity. -/
def timeoutGo (env : Env) (site : String) :
    ℕ → ℕ → List Game × Finset String → List Game × Finset String
  | 0, _, acc => acc
  | m + 1, counter, (rs, ex) =>
    let c := freshFrom (timeoutStem site) ex (ex.card + 1) counter
    timeoutGo env site m (c + 1)
      (rs ++ [mkTimeoutGame env site c],
       insert (normalize_game_name (timeoutStem site ++ natStr c)) ex)

/-- State of the run loop; invoked instruments which sites actually had
scrape_site called, hence which sites performed any fetch or extract work. -/
structure RunState where
  results : List Game
  existing : Finset String
  invoked : List String

/-- One iteration of the for-site loop of run: when the deadline has already
passed at the check, the source is skipped and its quota of timeout
synthetics is appended; otherwise scrape_site runs and its output and
updated index are taken over. -/
def runStep (env : Env) (conc : ℕ) (deadline : ℤ) (st : RunState) (k : ℕ)
    (site : String) : RunState :=
  if env.checkTime k ≥ deadline then
    let p := timeoutGo env site (TARGET site) 1 (st.results, st.existing)
    ⟨p.1, p.2, st.invoked⟩
  else
    let p := scrape_site env site (TARGET site) conc deadline st.existing
    ⟨st.results ++ p.1, p.2, st.invoked ++ [site]⟩

/-- Name stem of the backup records of the outer except branch of run. -/
def backupStem (site : String) : String :=
  "Backup " ++ pyUpper site ++ " Juego "

/-- One backup record of the outer except branch. -/
def mkBackupGame (env : Env) (site : String) (c : ℕ) : Game :=
  let v := env.buVals site c
  { name := backupStem site ++ natStr c
    price_regular := v.price_regular
    price_discount := v.price_discount
    rating := v.rating
    platforms := ["PC"]
    image_url := "https://via.placeholder.com/460x215/333333/ffffff?text=Juego"
    distribution_type := v.distribution_type
    howlongtobeat := v.howlongtobeat
    site := site
    url := "https://example.com/backup/" ++ natStr c }

/-- Inner loop of the backup generator for one site: like the timeout path
but with the Backup stem; the counter continues across sites. -/
def backupGo (env : Env) (site : String) :
    ℕ → ℕ → List Game × Finset String → ℕ × (List Game × Finset String)
  | 0, counter, acc => (counter, acc)
  | m + 1, counter, (rs, ex) =>
    let c := freshFrom (backupStem site) ex (ex.card + 1) counter
    backupGo env site m (c + 1)
      (rs ++ [mkBackupGame env site c],
       insert (normalize_game_name (backupStem site ++ natStr c)) ex)

/-- The whole backup list of the outer except branch of run: one shared
counter and one fresh index, every site filled to its quota in order. -/
def backupAll (env : Env) : List Game :=
  (SITES.foldl
    (fun acc site =>
      let r := backupGo env site (TARGET site) acc.1 acc.2
      (r.1, r.2))
    (1, ([], (∅ : Finset String)))).2.1

/-- run from src/datos.py: compute the shared deadline, then fold the run
loop over the configured sources with one shared dedup index; an
unrecoverable fault in the body degrades to the backup list.  Writing the
JSON and CSV artifacts has no bearing on the produced list and is omitted. -/
def run (env : Env) (timeout : ℤ) (conc : ℕ) : RunState :=
  if env.runFault then ⟨backupAll env, ∅, []⟩
  else
    let deadline := env.startTime + timeout
    (SITES.enum.foldl (fun st p => runStep env conc deadline st p.1 p.2)
      ⟨[], ∅, []⟩)

/- ============ decimal-string lemmas ============ -/

def lowFilter (l : List Char) : List Char :=
  (l.map pyLower).filter (fun c => !isStripSym c)

/-- The normalized-identity stem contributed by a name template: what comes
before the appended counter digits after normalization. -/
def keyStem (p : String) : List Char :=
  (collapseWs (lowFilter p.data)).dropWhile isPyWs

def wsCanon (l : List Char) : Prop := ∀ c ∈ l, isPyWs c = true → c = ' '

def noAdjWs : List Char → Prop
  | c :: d :: rest => ¬(isPyWs c = true ∧ isPyWs d = true) ∧ noAdjWs (d :: rest)
  | _ => True

/-- Invariant carried through the harvesting loop and the backfill: accepted
records have pairwise distinct identities, every accepted identity is in both
the local seen set and the shared index, no accepted identity was already in
the shared index at entry, and the shared index only grows. -/
def HInv (ex0 : Finset String) (st : HState) : Prop :=
  st.results.Pairwise (fun a b => gameKey a ≠ gameKey b) ∧
  (∀ g ∈ st.results, gameKey g ∈ st.seen ∧ gameKey g ∈ st.existing) ∧
  (∀ g ∈ st.results, gameKey g ∉ ex0) ∧
  ex0 ⊆ st.existing

/-- Invariant of the run loop: all emitted records have pairwise distinct
identities and every emitted identity is registered in the shared index. -/
def PInv (p : List Game × Finset String) : Prop :=
  p.1.Pairwise (fun a b => gameKey a ≠ gameKey b) ∧ ∀ g ∈ p.1, gameKey g ∈ p.2

/-- Invariant of the run state. -/
def RInv (st : RunState) : Prop := PInv (st.results, st.existing)

/-- Fixed synthetic draws used by the example environments. -/
def constVals : SynthVals := ⟨1, 1, 90, "Digital", 10⟩

/-- Environment in which discovery finds nothing anywhere, nothing extracts,
clocks stand at zero and no fault occurs. -/
def envNoSeeds : Env :=
  { seeds := fun _ => []
    worker := fun _ _ _ => none
    clock := fun _ _ => 0
    checkTime := fun _ => 0
    startTime := 0
    fault := fun _ => false
    runFault := false
    synthVals := fun _ _ => constVals
    fbVals := fun _ _ => constVals
    toVals := fun _ _ => constVals
    buVals := fun _ _ => constVals }

/-- Environment with one discovered seed per source and no extractable page. -/
def envOneSeed : Env := { envNoSeeds with seeds := fun _ => ["u1"] }

/-- Environment in which every orchestrator invocation faults. -/
def envFault : Env := { envNoSeeds with fault := fun _ => true }

/-- Environment whose clock reads 99 at every run-loop check. -/
def envLate : Env := { envNoSeeds with checkTime := fun _ => 99 }

/-- Harvested record number i of the duplicate-identity scenario: the first
extracted page carries exactly the title the gog fallback will later
generate, the rest are distinct ordinary titles. -/
def mkRealGame (i : ℕ) : Game :=
  { name := if i = 0 then "Juego GOG #1" else "Real Steam " ++ natStr i
    price_regular := 1
    price_discount := 1
    rating := 90
    platforms := ["PC"]
    image_url := "img"
    distribution_type := "Digital"
    howlongtobeat := 10
    site := "steam"
    url := "https://s/" ++ natStr i }

/-- Duplicate-identity scenario: steam harvests 80 real records, one of them
titled like a gog fallback record, and gog and gmg both fault. -/
def envDup : Env :=
  { seeds := fun s => if s = "steam" then (List.range 80).map (fun i => "u" ++ natStr i) else []
    worker := fun s k i => if s = "steam" ∧ k = 0 then some (mkRealGame i) else none
    clock := fun _ _ => 0
    checkTime := fun _ => 0
    startTime := 0
    fault := fun s => s = "gog" || s = "gmg"
    runFault := false
    synthVals := fun _ _ => constVals
    fbVals := fun _ _ => constVals
    toVals := fun _ _ => constVals
    buVals := fun _ _ => constVals }

/- ============ claims ============ -/


theorem digitChar_inj : ∀ d1, d1 < 10 → ∀ d2, d2 < 10 → digitChar d1 = digitChar d2 → d1 = d2 := by
  decide

theorem natStrAux_zero (fuel : ℕ) : natStrAux fuel 0 = [] := by
  cases fuel <;> simp [natStrAux]

theorem natStrAux_fuel : ∀ f1 f2 n : ℕ, n ≤ f1 → n ≤ f2 → natStrAux f1 n = natStrAux f2 n := by
  intro f1
  induction f1 using Nat.strong_induction_on with
  | _ f1 ih =>
    intro f2 n h1 h2
    match n, f1, f2 with
    | 0, f1, f2 => rw [natStrAux_zero, natStrAux_zero]
    | n + 1, g1 + 1, g2 + 1 =>
      simp only [natStrAux, if_neg (Nat.succ_ne_zero n)]
      have hd : (n + 1) / 10 < n + 1 := Nat.div_lt_self (Nat.succ_pos n) (by omega)
      have : natStrAux g1 ((n + 1) / 10) = natStrAux g2 ((n + 1) / 10) := by
        have hg1 : (n + 1) / 10 ≤ g1 := by omega
        have hg2 : (n + 1) / 10 ≤ g2 := by omega
        exact ih g1 (by omega) g2 _ hg1 hg2
      rw [this]

theorem natStrAux_self (n : ℕ) (h : 1 ≤ n) :
    natStrAux n n = digitChar (n % 10) :: natStrAux (n / 10) (n / 10) := by
  match n, h with
  | n + 1, _ =>
    simp only [natStrAux, if_neg (Nat.succ_ne_zero n)]
    have : natStrAux n ((n + 1) / 10) = natStrAux ((n + 1) / 10) ((n + 1) / 10) :=
      natStrAux_fuel n _ _ (by omega) (le_refl _)
    rw [this]

theorem natStrAux_self_inj : ∀ m, 1 ≤ m → ∀ n, 1 ≤ n → natStrAux m m = natStrAux n n → m = n := by
  intro m
  induction m using Nat.strong_induction_on with
  | _ m ih =>
    intro hm n hn h
    rw [natStrAux_self m hm, natStrAux_self n hn] at h
    have hhead : digitChar (m % 10) = digitChar (n % 10) := (List.cons.injEq _ _ _ _ ▸ h).1
    have htail : natStrAux (m / 10) (m / 10) = natStrAux (n / 10) (n / 10) :=
      (List.cons.injEq _ _ _ _ ▸ h).2
    have hmod : m % 10 = n % 10 :=
      digitChar_inj _ (Nat.mod_lt _ (by omega)) _ (Nat.mod_lt _ (by omega)) hhead
    rcases Nat.eq_zero_or_pos (m / 10) with h0 | h1
    · rcases Nat.eq_zero_or_pos (n / 10) with g0 | g1
      · omega
      · rw [h0, natStrAux_zero, natStrAux_self _ g1] at htail
        exact absurd htail.symm (List.cons_ne_nil _ _)
    · rcases Nat.eq_zero_or_pos (n / 10) with g0 | g1
      · rw [g0, natStrAux_zero, natStrAux_self _ h1] at htail
        exact absurd htail (List.cons_ne_nil _ _)
      · have := ih (m / 10) (Nat.div_lt_self (by omega) (by omega)) h1 (n / 10) g1 htail
        omega

theorem natStr_inj : ∀ m n : ℕ, natStr m = natStr n → m = n := by
  have hzero : ∀ k, 1 ≤ k → ("0" : String) = ⟨(natStrAux k k).reverse⟩ → False := by
    intro k hk h
    have hd : (["0".data.head!] : List Char) = ['0'] := by decide
    have h2 : ['0'] = (natStrAux k k).reverse := congrArg String.data h
    have h3 : natStrAux k k = ['0'] := by
      have := congrArg List.reverse h2
      simpa using this.symm
    rw [natStrAux_self k hk] at h3
    have hh : digitChar (k % 10) = '0' := (List.cons.injEq _ _ _ _ ▸ h3).1
    have ht : natStrAux (k / 10) (k / 10) = [] := (List.cons.injEq _ _ _ _ ▸ h3).2
    have hz : ('0' : Char) = digitChar 0 := by decide
    have : k % 10 = 0 := digitChar_inj _ (Nat.mod_lt _ (by omega)) 0 (by omega) (hz ▸ hh)
    rcases Nat.eq_zero_or_pos (k / 10) with h0 | h1
    · omega
    · rw [natStrAux_self _ h1] at ht
      exact List.cons_ne_nil _ _ ht
  intro m n h
  unfold natStr at h
  rcases Nat.eq_zero_or_pos m with hm | hm <;> rcases Nat.eq_zero_or_pos n with hn | hn
  · omega
  · rw [if_pos hm, if_neg (by omega)] at h
    exact absurd (hzero n hn h) id
  · rw [if_neg (by omega), if_pos hn] at h
    exact absurd (hzero m hm h.symm) id
  · rw [if_neg (by omega), if_neg (by omega)] at h
    have h2 : (natStrAux m m).reverse = (natStrAux n n).reverse := congrArg String.data h
    have h3 : natStrAux m m = natStrAux n n := by
      have := congrArg List.reverse h2
      simpa using this
    exact natStrAux_self_inj m hm n hn h3

theorem mem_natStrAux : ∀ fuel n c, c ∈ natStrAux fuel n → ∃ d, d < 10 ∧ c = digitChar d := by
  intro fuel
  induction fuel with
  | zero => intro n c h; simp [natStrAux] at h
  | succ f ih =>
    intro n c h
    by_cases hn : n = 0
    · simp [natStrAux, hn] at h
    · simp only [natStrAux, if_neg hn, List.mem_cons] at h
      rcases h with h | h
      · exact ⟨n % 10, Nat.mod_lt _ (by omega), h⟩
      · exact ih _ _ h

theorem mem_natStr_data (n : ℕ) (c : Char) (h : c ∈ (natStr n).data) :
    ∃ d, d < 10 ∧ c = digitChar d := by
  unfold natStr at h
  by_cases hn : n = 0
  · rw [if_pos hn] at h
    have : c = '0' := by
      have : ("0" : String).data = ['0'] := by decide
      rw [this] at h
      simpa using h
    exact ⟨0, by omega, by rw [this]; decide⟩
  · rw [if_neg hn] at h
    have : c ∈ natStrAux n n := List.mem_reverse.mp h
    exact mem_natStrAux _ _ _ this

theorem natStr_data_ne_nil (n : ℕ) : (natStr n).data ≠ [] := by
  unfold natStr
  by_cases hn : n = 0
  · rw [if_pos hn]; decide
  · rw [if_neg hn]
    simp only [ne_eq, List.reverse_eq_nil_iff]
    rw [natStrAux_self n (by omega)]
    exact List.cons_ne_nil _ _

/- ============ normalization and fresh-name lemmas ============ -/

/-- Character facts about decimal digits, checked by enumeration. -/
theorem digit_props : ∀ d, d < 10 → isPyWs (digitChar d) = false ∧
    isStripSym (digitChar d) = false ∧ pyLower (digitChar d) = digitChar d := by decide

theorem natStr_not_ws (n : ℕ) : ∀ c ∈ (natStr n).data, isPyWs c = false := by
  intro c hc
  rcases mem_natStr_data n c hc with ⟨d, hd, rfl⟩
  exact (digit_props d hd).1

theorem natStr_not_sym (n : ℕ) : ∀ c ∈ (natStr n).data, isStripSym c = false := by
  intro c hc
  rcases mem_natStr_data n c hc with ⟨d, hd, rfl⟩
  exact (digit_props d hd).2.1

theorem natStr_lower (n : ℕ) : ∀ c ∈ (natStr n).data, pyLower c = c := by
  intro c hc
  rcases mem_natStr_data n c hc with ⟨d, hd, rfl⟩
  exact (digit_props d hd).2.2

theorem normChars_eq (l : List Char) : normChars l = stripWs (collapseWs (lowFilter l)) := rfl

theorem lowFilter_append_fixed (x d : List Char)
    (hd : ∀ c ∈ d, isStripSym c = false ∧ pyLower c = c) :
    lowFilter (x ++ d) = lowFilter x ++ d := by
  unfold lowFilter
  rw [List.map_append, List.filter_append]
  congr 1
  have hmap : d.map pyLower = d := by
    have := List.map_congr_left (l := d) (f := pyLower) (g := id) (fun c hc => (hd c hc).2)
    simpa using this
  rw [hmap]
  apply List.filter_eq_self.mpr
  intro c hc
  simp [(hd c hc).1]

theorem collapseWs_of_nonws (d : List Char) (h : ∀ c ∈ d, isPyWs c = false) :
    collapseWs d = d := by
  induction d using collapseWs.induct with
  | case1 => rfl
  | case2 c hc => exact absurd (h c (by simp)) (by simp [hc])
  | case3 c hc =>
    simp only [collapseWs]
    rw [if_neg hc]
  | case4 c e rest hws ih =>
    have := h c (by simp)
    simp [this] at hws
  | case5 c e rest hws ih =>
    simp only [collapseWs, if_neg hws]
    rw [ih (fun x hx => h x (List.mem_cons_of_mem c hx))]
    have := h c (by simp)
    simp [this]

theorem collapseWs_append_nonws (x d : List Char) (hne : d ≠ [])
    (h : ∀ c ∈ d, isPyWs c = false) :
    collapseWs (x ++ d) = collapseWs x ++ d := by
  induction x with
  | nil =>
    rw [List.nil_append, collapseWs_of_nonws d h]
    rfl
  | cons c x ih =>
    cases x with
    | nil =>
      cases d with
      | nil => exact absurd rfl hne
      | cons e d2 =>
        have he : isPyWs e = false := h e (by simp)
        simp only [List.nil_append, List.cons_append, collapseWs, he, Bool.and_false,
          Bool.false_eq_true, if_false]
        rw [collapseWs_of_nonws (e :: d2) h]
        by_cases hc : isPyWs c <;> simp [hc]
    | cons c2 x2 =>
      simp only [List.cons_append, collapseWs] at ih ⊢
      by_cases hws : (isPyWs c && isPyWs c2) = true
      · rw [if_pos hws, if_pos hws]
        exact ih
      · rw [if_neg hws, if_neg hws]
        simp only [List.cons_append]
        exact congrArg _ ih

theorem dropWhile_append_headNonws (x d : List Char) (hne : d ≠ [])
    (h : ∀ c ∈ d, isPyWs c = false) :
    (x ++ d).dropWhile isPyWs = x.dropWhile isPyWs ++ d := by
  induction x with
  | nil =>
    cases d with
    | nil => exact absurd rfl hne
    | cons e d2 =>
      simp [List.dropWhile_cons, h e (by simp)]
  | cons c x ih =>
    by_cases hc : isPyWs c
    · simp only [List.cons_append, List.dropWhile_cons, hc, if_true]
      exact ih
    · simp [List.dropWhile_cons, hc]

theorem dropTrailingWs_of_nonws (d : List Char) (h : ∀ c ∈ d, isPyWs c = false) :
    dropTrailingWs d = d := by
  induction d with
  | nil => rfl
  | cons c rest ih =>
    simp only [dropTrailingWs]
    rw [ih (fun x hx => h x (List.mem_cons_of_mem c hx))]
    cases rest with
    | nil => simp [h c (by simp)]
    | cons e r2 => rfl

theorem dropTrailingWs_append (x d : List Char) (hne : dropTrailingWs d ≠ []) :
    dropTrailingWs (x ++ d) = x ++ dropTrailingWs d := by
  induction x with
  | nil => rfl
  | cons c x ih =>
    simp only [List.cons_append, dropTrailingWs]
    have ih2 : dropTrailingWs (List.append x d) = x ++ dropTrailingWs d := ih
    rw [ih2]
    have : x ++ dropTrailingWs d ≠ [] := by
      intro hcon
      exact hne (List.append_eq_nil.mp hcon).2
    cases hx : x ++ dropTrailingWs d with
    | nil => exact absurd hx this
    | cons a b => rfl

theorem norm_append_natStr (p : String) (n : ℕ) :
    normalize_game_name (p ++ natStr n) = ⟨keyStem p ++ (natStr n).data⟩ := by
  have hdata : (p ++ natStr n).data = p.data ++ (natStr n).data := by
    cases p
    cases hn : natStr n
    rfl
  have hne : (p ++ natStr n) ≠ "" := by
    intro hcon
    have : (p ++ natStr n).data = [] := by rw [hcon]
    rw [hdata] at this
    exact natStr_data_ne_nil n (List.append_eq_nil.mp this).2
  rw [normalize_game_name, if_neg hne]
  congr 1
  rw [hdata, normChars_eq]
  have hdig : ∀ c ∈ (natStr n).data, isStripSym c = false ∧ pyLower c = c :=
    fun c hc => ⟨natStr_not_sym n c hc, natStr_lower n c hc⟩
  rw [lowFilter_append_fixed _ _ hdig]
  rw [collapseWs_append_nonws _ _ (natStr_data_ne_nil n) (natStr_not_ws n)]
  unfold stripWs
  rw [dropWhile_append_headNonws _ _ (natStr_data_ne_nil n) (natStr_not_ws n)]
  rw [dropTrailingWs_append]
  · rw [dropTrailingWs_of_nonws _ (natStr_not_ws n), keyStem]
  · rw [dropTrailingWs_of_nonws _ (natStr_not_ws n)]
    exact natStr_data_ne_nil n

theorem norm_stem_inj (p : String) (m n : ℕ)
    (h : normalize_game_name (p ++ natStr m) = normalize_game_name (p ++ natStr n)) :
    m = n := by
  rw [norm_append_natStr, norm_append_natStr] at h
  have hdata : keyStem p ++ (natStr m).data = keyStem p ++ (natStr n).data :=
    congrArg String.data h
  have : (natStr m).data = (natStr n).data := List.append_cancel_left hdata
  exact natStr_inj m n (by cases hm : natStr m; cases hn : natStr n; simp_all)

theorem exists_fresh_key (p : String) (bad : Finset String) (c : ℕ) :
    ∃ k, k ≤ bad.card ∧ normalize_game_name (p ++ natStr (c + k)) ∉ bad := by
  by_contra hc
  push_neg at hc
  have hinj : Set.InjOn (fun k => normalize_game_name (p ++ natStr (c + k)))
      ↑(Finset.range (bad.card + 1)) := by
    intro a _ b _ hab
    have := norm_stem_inj p (c + a) (c + b) hab
    omega
  have hsub : (Finset.range (bad.card + 1)).image
      (fun k => normalize_game_name (p ++ natStr (c + k))) ⊆ bad := by
    intro x hx
    rcases Finset.mem_image.mp hx with ⟨k, hk, rfl⟩
    exact hc k (Nat.lt_succ_iff.mp (Finset.mem_range.mp hk))
  have hcard := Finset.card_le_card hsub
  rw [Finset.card_image_of_injOn hinj, Finset.card_range] at hcard
  omega

theorem freshFrom_spec (p : String) (bad : Finset String) :
    ∀ fuel c, (∃ k, k < fuel ∧ normalize_game_name (p ++ natStr (c + k)) ∉ bad) →
    normalize_game_name (p ++ natStr (freshFrom p bad fuel c)) ∉ bad := by
  intro fuel
  induction fuel with
  | zero => intro c h; omega
  | succ f ih =>
    intro c h
    by_cases hmem : normalize_game_name (p ++ natStr c) ∈ bad
    · simp only [freshFrom, if_pos hmem]
      apply ih
      rcases h with ⟨k, hk, hfresh⟩
      cases k with
      | zero => exact absurd hmem (by simpa using hfresh)
      | succ k2 =>
        exact ⟨k2, by omega, by rw [show c + 1 + k2 = c + (k2 + 1) by omega]; exact hfresh⟩
    · simp only [freshFrom, if_neg hmem]
      simpa using hmem

theorem freshFrom_fresh (p : String) (bad : Finset String) (c : ℕ) :
    normalize_game_name (p ++ natStr (freshFrom p bad (bad.card + 1) c)) ∉ bad := by
  apply freshFrom_spec
  rcases exists_fresh_key p bad c with ⟨k, hk, hfresh⟩
  exact ⟨k, by omega, hfresh⟩

/- ============ idempotence of normalization ============ -/

/- ===== character level ===== -/

theorem char_toNat_ofNat (n : ℕ) (h : n.isValidChar) : (Char.ofNat n).toNat = n := by
  rw [Char.ofNat, dif_pos h]
  rfl

theorem pyLower_idem (c : Char) : pyLower (pyLower c) = pyLower c := by
  unfold pyLower Char.toLower
  by_cases h : c.toNat ≥ 65 ∧ c.toNat ≤ 90
  · rw [if_pos h]
    have hv : (c.toNat + 32).isValidChar := by
      left
      omega
    have ht : (Char.ofNat (c.toNat + 32)).toNat = c.toNat + 32 := char_toNat_ofNat _ hv
    rw [ht, if_neg (by omega)]
  · rw [if_neg h, if_neg h]

theorem pyLower_space : pyLower ' ' = ' ' := by decide

/- ===== canonical-form predicates ===== -/

theorem noAdjWs_tail {c : Char} {l : List Char} (h : noAdjWs (c :: l)) : noAdjWs l := by
  cases l with
  | nil => trivial
  | cons d rest => exact h.2

theorem noAdjWs_single (c : Char) : noAdjWs [c] := trivial

/- ===== collapseWs facts ===== -/

theorem mem_collapseWs {c : Char} : ∀ {l : List Char}, c ∈ collapseWs l → c ∈ l ∨ c = ' ' := by
  intro l
  induction l using collapseWs.induct with
  | case1 => intro h; simp [collapseWs] at h
  | case2 a ha =>
    intro h
    simp only [collapseWs, if_pos ha, List.mem_singleton] at h
    exact Or.inr h
  | case3 a ha =>
    intro h
    simp only [collapseWs, if_neg ha, List.mem_singleton] at h
    exact Or.inl (by simp [h])
  | case4 a d rest hws ih =>
    intro h
    rw [collapseWs, if_pos hws] at h
    rcases ih h with h2 | h2
    · exact Or.inl (List.mem_cons_of_mem a h2)
    · exact Or.inr h2
  | case5 a d rest hws ih =>
    intro h
    rw [collapseWs, if_neg hws] at h
    rcases List.mem_cons.mp h with h2 | h2
    · by_cases ha : isPyWs a
      · exact Or.inr (by simp [ha] at h2; exact h2)
      · exact Or.inl (by simp [ha] at h2; simp [h2])
    · rcases ih h2 with h3 | h3
      · exact Or.inl (List.mem_cons_of_mem a h3)
      · exact Or.inr h3

theorem collapseWs_wsCanon : ∀ l : List Char, wsCanon (collapseWs l) := by
  intro l
  induction l using collapseWs.induct with
  | case1 => intro c hc _; simp [collapseWs] at hc
  | case2 a ha =>
    intro c hc _
    simp only [collapseWs, if_pos ha, List.mem_singleton] at hc
    exact hc
  | case3 a ha =>
    intro c hc hws
    simp only [collapseWs, if_neg ha, List.mem_singleton] at hc
    subst hc
    exact absurd hws (by simp [ha])
  | case4 a d rest hws ih =>
    intro c hc hcw
    rw [collapseWs, if_pos hws] at hc
    exact ih c hc hcw
  | case5 a d rest hws ih =>
    intro c hc hcw
    rw [collapseWs, if_neg hws] at hc
    rcases List.mem_cons.mp hc with h2 | h2
    · by_cases ha : isPyWs a
      · simp [ha] at h2; exact h2
      · simp [ha] at h2; subst h2; exact absurd hcw (by simp [ha])
    · exact ih c h2 hcw

theorem collapseWs_head : ∀ (d : Char) (rest : List Char),
    ∃ t, collapseWs (d :: rest) = (if isPyWs d then ' ' else d) :: t := by
  intro d rest
  induction rest generalizing d with
  | nil => exact ⟨[], by by_cases hd : isPyWs d <;> simp [collapseWs, hd]⟩
  | cons a rest2 ih =>
    by_cases hd : isPyWs d
    · by_cases ha : isPyWs a
      · rcases ih a with ⟨t, ht⟩
        refine ⟨t, ?_⟩
        rw [show collapseWs (d :: a :: rest2) = collapseWs (a :: rest2) by
          simp [collapseWs, hd, ha]]
        rw [ht, if_pos ha, if_pos hd]
      · refine ⟨collapseWs (a :: rest2), ?_⟩
        simp [collapseWs, hd, ha]
    · refine ⟨collapseWs (a :: rest2), ?_⟩
      simp [collapseWs, hd]

theorem collapseWs_noAdjWs : ∀ l : List Char, noAdjWs (collapseWs l) := by
  intro l
  induction l using collapseWs.induct with
  | case1 => trivial
  | case2 a ha => rw [collapseWs, if_pos ha]; trivial
  | case3 a ha => rw [collapseWs, if_neg ha]; trivial
  | case4 a d rest hws ih => rw [collapseWs, if_pos hws]; exact ih
  | case5 a d rest hws ih =>
    rw [collapseWs, if_neg hws]
    rcases collapseWs_head d rest with ⟨t, ht⟩
    rw [ht]
    rw [ht] at ih
    refine ⟨?_, ih⟩
    intro ⟨h1, h2⟩
    have hna : ¬ (isPyWs a = true ∧ isPyWs d = true) := by simpa using hws
    apply hna
    constructor
    · by_cases haa : isPyWs a
      · exact haa
      · rw [if_neg haa] at h1; exact absurd h1 (by simp [haa])
    · by_cases hdd : isPyWs d
      · exact hdd
      · rw [if_neg hdd] at h2; exact absurd h2 (by simp [hdd])

theorem collapseWs_of_canon : ∀ l : List Char, wsCanon l → noAdjWs l → collapseWs l = l := by
  intro l
  induction l using collapseWs.induct with
  | case1 => intro _ _; rfl
  | case2 a ha =>
    intro hc _
    rw [collapseWs, if_pos ha, hc a (by simp) ha]
  | case3 a ha =>
    intro _ _
    rw [collapseWs, if_neg ha]
  | case4 a d rest hws ih =>
    intro hc hn
    rcases Bool.and_eq_true_iff.mp hws with ⟨h1, h2⟩
    exact absurd ⟨h1, h2⟩ hn.1
  | case5 a d rest hws ih =>
    intro hc hn
    rw [collapseWs, if_neg hws]
    rw [ih (fun c hcm => hc c (List.mem_cons_of_mem a hcm)) (noAdjWs_tail hn)]
    by_cases ha : isPyWs a
    · rw [if_pos ha, hc a (by simp) ha]
    · rw [if_neg ha]

/- ===== stripWs facts ===== -/

theorem mem_dropTrailingWs {c : Char} : ∀ {l : List Char}, c ∈ dropTrailingWs l → c ∈ l := by
  intro l
  induction l with
  | nil => intro h; simp [dropTrailingWs] at h
  | cons a rest ih =>
    intro h
    rw [dropTrailingWs] at h
    rcases hr : dropTrailingWs rest with _ | ⟨b, r2⟩
    · rw [hr] at h
      by_cases ha : isPyWs a
      · simp [ha] at h
      · simp [ha] at h
        simp [h]
    · rw [hr] at h
      rcases List.mem_cons.mp h with h2 | h2
      · simp [h2]
      · exact List.mem_cons_of_mem a (ih (by rw [hr]; exact h2))

theorem mem_dropWhileWs {c : Char} {l : List Char} (h : c ∈ l.dropWhile isPyWs) : c ∈ l := by
  induction l with
  | nil => simp at h
  | cons a rest ih =>
    rw [List.dropWhile_cons] at h
    by_cases ha : isPyWs a
    · simp only [ha, if_true] at h
      exact List.mem_cons_of_mem a (ih (by simpa [ha] using h))
    · simp only [ha] at h
      simpa using h

theorem mem_stripWs {c : Char} {l : List Char} (h : c ∈ stripWs l) : c ∈ l :=
  mem_dropWhileWs (mem_dropTrailingWs h)

theorem noAdjWs_dropWhile {l : List Char} (h : noAdjWs l) : noAdjWs (l.dropWhile isPyWs) := by
  induction l with
  | nil => trivial
  | cons a rest ih =>
    rw [List.dropWhile_cons]
    by_cases ha : isPyWs a
    · simp only [ha, if_true]
      exact ih (noAdjWs_tail h)
    · simp only [ha]
      simpa using h

theorem noAdjWs_dropTrailing {l : List Char} (h : noAdjWs l) : noAdjWs (dropTrailingWs l) := by
  induction l with
  | nil => trivial
  | cons a rest ih =>
    rw [dropTrailingWs]
    rcases hr : dropTrailingWs rest with _ | ⟨b, r2⟩
    · by_cases ha : isPyWs a <;> simp [ha] <;> trivial
    · have htail : noAdjWs (b :: r2) := hr ▸ ih (noAdjWs_tail h)
      refine ⟨?_, htail⟩
      intro ⟨h1, h2⟩
      -- b is the head of rest
      cases rest with
      | nil => simp [dropTrailingWs] at hr
      | cons e rest2 =>
        have hb : b = e := by
          rw [dropTrailingWs] at hr
          rcases h2r : dropTrailingWs rest2 with _ | ⟨f, r3⟩
          · rw [h2r] at hr
            by_cases he : isPyWs e
            · simp [he] at hr
            · simp [he] at hr
              exact hr.1.symm
          · rw [h2r] at hr
            exact (List.cons.injEq _ _ _ _ ▸ hr).1.symm
        exact h.1 ⟨h1, hb ▸ h2⟩

theorem lastNonWs_dropTrailing : ∀ l : List Char, dropTrailingWs l = [] ∨
    ∃ t c, dropTrailingWs l = t ++ [c] ∧ isPyWs c = false := by
  intro l
  induction l with
  | nil => exact Or.inl rfl
  | cons a rest ih =>
    rw [dropTrailingWs]
    rcases hr : dropTrailingWs rest with _ | ⟨b, r2⟩
    · by_cases ha : isPyWs a
      · exact Or.inl (by simp [ha])
      · exact Or.inr ⟨[], a, by simp [ha]⟩
    · rcases ih with h0 | ⟨t, c, hc, hcw⟩
      · exact absurd (h0.symm.trans hr).symm (List.cons_ne_nil b r2)
      · refine Or.inr ⟨a :: t, c, ?_, hcw⟩
        show a :: (b :: r2) = a :: t ++ [c]
        rw [show (b :: r2) = t ++ [c] from hr.symm.trans hc]
        rfl

theorem headNonWs_dropWhile (l : List Char) : l.dropWhile isPyWs = [] ∨
    ∃ c t, l.dropWhile isPyWs = c :: t ∧ isPyWs c = false := by
  induction l with
  | nil => exact Or.inl rfl
  | cons a rest ih =>
    rw [List.dropWhile_cons]
    by_cases ha : isPyWs a
    · simpa [ha] using ih
    · exact Or.inr ⟨a, rest, by simp [ha], by simp [ha]⟩

/- ===== idempotence assembly ===== -/

theorem dropTrailingWs_cons_head (c : Char) (t : List Char) :
    dropTrailingWs (c :: t) = [] ∨ ∃ t2, dropTrailingWs (c :: t) = c :: t2 := by
  rw [dropTrailingWs]
  rcases hr : dropTrailingWs t with _ | ⟨b, r2⟩
  · by_cases hc : isPyWs c
    · exact Or.inl (by simp [hc])
    · exact Or.inr ⟨[], by simp [hc]⟩
  · exact Or.inr ⟨b :: r2, rfl⟩

theorem stripWs_idem (x : List Char) : stripWs (stripWs x) = stripWs x := by
  unfold stripWs
  rcases headNonWs_dropWhile x with h0 | ⟨c, t, hct, hcw⟩
  · rw [h0]
    rfl
  · rw [hct]
    rcases dropTrailingWs_cons_head c t with hdt | ⟨t2, hdt⟩
    · rw [hdt]
      rfl
    · rw [hdt]
      have hdw : (c :: t2).dropWhile isPyWs = c :: t2 := by
        rw [List.dropWhile_cons, if_neg (by simp [hcw])]
      rw [hdw]
      rcases lastNonWs_dropTrailing (c :: t) with h1 | ⟨t3, e, h3, h3w⟩
      · exact absurd (h1.symm.trans hdt).symm (List.cons_ne_nil c t2)
      · rw [hdt] at h3
        rw [h3]
        rw [dropTrailingWs_append t3 [e]]
        · rw [show dropTrailingWs [e] = [e] by simp [dropTrailingWs, h3w]]
        · rw [show dropTrailingWs [e] = [e] by simp [dropTrailingWs, h3w]]
          exact List.cons_ne_nil e []

theorem lowFilter_mem_fixed {c : Char} {l : List Char} (h : c ∈ lowFilter l) : pyLower c = c := by
  unfold lowFilter at h
  have hm : c ∈ l.map pyLower := List.mem_of_mem_filter h
  rcases List.mem_map.mp hm with ⟨a, _, rfl⟩
  exact pyLower_idem a

theorem lowFilter_mem_sym {c : Char} {l : List Char} (h : c ∈ lowFilter l) :
    isStripSym c = false := by
  have := List.of_mem_filter h
  simpa using this

theorem normChars_mem_fixed {c : Char} {l : List Char} (h : c ∈ normChars l) :
    pyLower c = c ∧ isStripSym c = false := by
  rw [normChars_eq] at h
  have h2 := mem_stripWs h
  rcases mem_collapseWs h2 with h3 | h3
  · exact ⟨lowFilter_mem_fixed h3, lowFilter_mem_sym h3⟩
  · subst h3
    exact ⟨pyLower_space, by decide⟩

theorem lowFilter_eq_self {l : List Char}
    (h : ∀ c ∈ l, pyLower c = c ∧ isStripSym c = false) : lowFilter l = l := by
  unfold lowFilter
  have hmap : l.map pyLower = l := by
    have := List.map_congr_left (l := l) (f := pyLower) (g := id) (fun c hc => (h c hc).1)
    simpa using this
  rw [hmap]
  apply List.filter_eq_self.mpr
  intro c hc
  simp [(h c hc).2]

theorem normChars_wsCanon (l : List Char) : wsCanon (normChars l) := by
  intro c hc hw
  rw [normChars_eq] at hc
  exact collapseWs_wsCanon (lowFilter l) c (mem_stripWs hc) hw

theorem normChars_noAdj (l : List Char) : noAdjWs (normChars l) := by
  rw [normChars_eq]
  unfold stripWs
  exact noAdjWs_dropTrailing (noAdjWs_dropWhile (collapseWs_noAdjWs _))

theorem normChars_idem (l : List Char) : normChars (normChars l) = normChars l := by
  have h1 : lowFilter (normChars l) = normChars l :=
    lowFilter_eq_self (fun c hc => normChars_mem_fixed hc)
  have h2 : collapseWs (normChars l) = normChars l :=
    collapseWs_of_canon _ (normChars_wsCanon l) (normChars_noAdj l)
  calc normChars (normChars l)
      = stripWs (collapseWs (lowFilter (normChars l))) := normChars_eq _
    _ = stripWs (normChars l) := by rw [h1, h2]
    _ = normChars l := by
        rw [normChars_eq]
        exact stripWs_idem _

theorem normalize_game_name_idem (s : String) :
    normalize_game_name (normalize_game_name s) = normalize_game_name s := by
  by_cases ht : normalize_game_name s = ""
  · rw [ht]
    rfl
  · rw [normalize_game_name, if_neg ht]
    by_cases hs : s = ""
    · exact absurd (by rw [hs]; rfl) ht
    · rw [show normalize_game_name s = ⟨normChars s.data⟩ from by
        rw [normalize_game_name, if_neg hs]]
      show (⟨normChars (normChars s.data)⟩ : String) = ⟨normChars s.data⟩
      rw [normChars_idem]

/- ============ harvesting-state invariants ============ -/

theorem HInv_append {ex0 : Finset String} {st : HState} (h : HInv ex0 st) (g : Game)
    (hs : gameKey g ∉ st.seen) (he : gameKey g ∉ st.existing) :
    HInv ex0 ⟨st.results ++ [g], insert (gameKey g) st.seen, insert (gameKey g) st.existing⟩ := by
  obtain ⟨h1, h2, h3, h4⟩ := h
  refine ⟨?_, ?_, ?_, ?_⟩
  · rw [List.pairwise_append]
    refine ⟨h1, List.pairwise_singleton _ _, ?_⟩
    intro a ha b hb
    rw [List.mem_singleton.mp hb]
    intro hcon
    exact hs (hcon ▸ (h2 a ha).1)
  · intro x hx
    rcases List.mem_append.mp hx with hx | hx
    · exact ⟨Finset.mem_insert_of_mem (h2 x hx).1, Finset.mem_insert_of_mem (h2 x hx).2⟩
    · rw [List.mem_singleton.mp hx]
      exact ⟨Finset.mem_insert_self _ _, Finset.mem_insert_self _ _⟩
  · intro x hx
    rcases List.mem_append.mp hx with hx | hx
    · exact h3 x hx
    · rw [List.mem_singleton.mp hx]
      intro hcon
      exact he (h4 hcon)
  · exact h4.trans (Finset.subset_insert _ _)

theorem acceptTask_inv {ex0 : Finset String} {st : HState} (h : HInv ex0 st)
    (res : Option Game) : HInv ex0 (acceptTask st res) := by
  cases res with
  | none => exact h
  | some g =>
    rw [acceptTask]
    by_cases hn : g.name = ""
    · rw [if_pos hn]; exact h
    · rw [if_neg hn]
      by_cases hmem : normalize_game_name g.name ∈ st.seen ∨ normalize_game_name g.name ∈ st.existing
      · rw [if_pos hmem]; exact h
      · rw [if_neg hmem]
        push_neg at hmem
        exact HInv_append h g hmem.1 hmem.2

theorem runBatch_inv {ex0 : Finset String} {st : HState} (h : HInv ex0 st)
    (wk : ℕ → Option Game) (n : ℕ) : HInv ex0 (runBatch wk n st) := by
  rw [runBatch]
  induction List.range n generalizing st with
  | nil => exact h
  | cons a l ih => exact ih (acceptTask_inv h (wk a))

theorem harvestLoop_inv {ex0 : Finset String}
    (wk : ℕ → ℕ → Option Game) (clock : ℕ → ℤ) (target conc : ℕ) (deadline : ℤ)
    (seedCount : ℕ) :
    ∀ (fuel idx attempts k : ℕ) (st : HState), HInv ex0 st →
    HInv ex0 (harvestLoop wk clock target conc deadline seedCount fuel idx attempts k st) := by
  intro fuel
  induction fuel with
  | zero => intro idx attempts k st h; exact h
  | succ f ih =>
    intro idx attempts k st h
    rw [harvestLoop]
    by_cases hc : st.results.length < target ∧ idx < seedCount ∧
        clock k < deadline ∧ attempts < seedCount
    · rw [if_pos hc]
      exact ih _ _ _ _ (runBatch_inv h _ _)
    · rw [if_neg hc]
      exact h

theorem backfillGo_inv {ex0 : Finset String} (env : Env) (site : String) :
    ∀ (m counter : ℕ) (st : HState), HInv ex0 st →
    HInv ex0 (backfillGo env site m counter st) := by
  intro m
  induction m with
  | zero => intro counter st h; exact h
  | succ m2 ih =>
    intro counter st h
    rw [backfillGo]
    apply ih
    have hfresh := freshFrom_fresh (synthStem site) (st.seen ∪ st.existing) counter
    set c := freshFrom (synthStem site) (st.seen ∪ st.existing)
      ((st.seen ∪ st.existing).card + 1) counter with hc
    have hkey : gameKey (mkSynthGame env site c) =
        normalize_game_name (synthStem site ++ natStr c) := rfl
    have hs : gameKey (mkSynthGame env site c) ∉ st.seen := by
      rw [hkey]
      intro hcon
      exact hfresh (Finset.mem_union_left _ hcon)
    have he : gameKey (mkSynthGame env site c) ∉ st.existing := by
      rw [hkey]
      intro hcon
      exact hfresh (Finset.mem_union_right _ hcon)
    exact HInv_append h _ hs he

theorem backfill_inv {ex0 : Finset String} (env : Env) (site : String) (target : ℕ)
    {st : HState} (h : HInv ex0 st) : HInv ex0 (backfill env site target st) := by
  rw [backfill]
  by_cases hc : st.results.length < target
  · rw [if_pos hc]
    exact backfillGo_inv env site _ _ _ h
  · rw [if_neg hc]
    exact h

/-- Postcondition of scrape_site off the fault path: the produced records have
pairwise distinct identities, each is registered in the returned index, none
was in the given index, and the index only grows. -/
theorem scrape_site_inv (env : Env) (site : String) (target conc : ℕ) (deadline : ℤ)
    (ex0 : Finset String) (hf : env.fault site = false) :
    (scrape_site env site target conc deadline ex0).1.Pairwise
      (fun a b => gameKey a ≠ gameKey b) ∧
    (∀ g ∈ (scrape_site env site target conc deadline ex0).1,
      gameKey g ∈ (scrape_site env site target conc deadline ex0).2 ∧ gameKey g ∉ ex0) ∧
    ex0 ⊆ (scrape_site env site target conc deadline ex0).2 := by
  rw [scrape_site, if_neg (by simp [hf])]
  by_cases hk : knownSite site
  · rw [if_neg (by simp [hk])]
    by_cases hs : (env.seeds site).isEmpty
    · rw [if_pos hs]
      exact ⟨List.Pairwise.nil, by simp, Finset.Subset.refl _⟩
    · rw [if_neg hs]
      have hinit : HInv ex0 (⟨[], ∅, ex0⟩ : HState) :=
        ⟨List.Pairwise.nil, by simp, by simp, Finset.Subset.refl _⟩
      have h1 := backfill_inv env site target
        (harvestLoop_inv (env.worker site) (env.clock site) target conc deadline
          (env.seeds site).length ((env.seeds site).length + 1) 0 0 0 _ hinit)
      obtain ⟨p1, p2, p3, p4⟩ := h1
      refine ⟨p1.sublist (List.take_sublist _ _), ?_, p4⟩
      intro g hg
      have hg2 := List.take_subset _ _ hg
      exact ⟨(p2 g hg2).2, p3 g hg2⟩
  · rw [if_pos (by simp [hk])]
    exact ⟨List.Pairwise.nil, by simp, Finset.Subset.refl _⟩

/- ============ length facts ============ -/

theorem backfillGo_length (env : Env) (site : String) :
    ∀ (m counter : ℕ) (st : HState),
    (backfillGo env site m counter st).results.length = st.results.length + m := by
  intro m
  induction m with
  | zero => intro counter st; rfl
  | succ m2 ih =>
    intro counter st
    rw [backfillGo, ih]
    simp
    omega

theorem backfill_length (env : Env) (site : String) (target : ℕ) (st : HState) :
    target ≤ (backfill env site target st).results.length := by
  rw [backfill]
  by_cases hc : st.results.length < target
  · rw [if_pos hc, backfillGo_length]
    omega
  · rw [if_neg hc]
    omega

theorem fallbackList_length (env : Env) (site : String) (target : ℕ) :
    (fallbackList env site target).length = target := by
  simp [fallbackList]

theorem scrape_site_fault_eq (env : Env) (site : String) (target conc : ℕ)
    (deadline : ℤ) (ex0 : Finset String) (h : env.fault site = true) :
    scrape_site env site target conc deadline ex0 = (fallbackList env site target, ex0) := by
  rw [scrape_site, if_pos h]

theorem scrape_site_length (env : Env) (site : String) (target conc : ℕ)
    (deadline : ℤ) (ex0 : Finset String) (hk : knownSite site = true)
    (hs : env.seeds site ≠ []) :
    (scrape_site env site target conc deadline ex0).1.length = target := by
  by_cases hf : env.fault site
  · rw [scrape_site_fault_eq env site target conc deadline ex0 hf]
    exact fallbackList_length env site target
  · rw [scrape_site, if_neg (by simp [hf]), if_neg (by simp [hk]),
      if_neg (by simp [List.isEmpty_iff, hs])]
    rw [List.length_take]
    have := backfill_length env site target
      (harvestLoop (env.worker site) (env.clock site) target conc deadline
        (env.seeds site).length ((env.seeds site).length + 1) 0 0 0 ⟨[], ∅, ex0⟩)
    omega

theorem scrape_site_empty_eq (env : Env) (site : String) (target conc : ℕ)
    (deadline : ℤ) (ex0 : Finset String) (hf : env.fault site = false)
    (hs : env.seeds site = []) :
    scrape_site env site target conc deadline ex0 = ([], ex0) := by
  rw [scrape_site, if_neg (by simp [hf])]
  by_cases hk : knownSite site
  · rw [if_neg (by simp [hk]), if_pos (by simp [List.isEmpty_iff, hs])]
  · rw [if_pos (by simp [hk])]

/- ============ run-level invariants ============ -/

theorem PInv_append_fresh {p : List Game × Finset String} (h : PInv p) (g : Game)
    (hfresh : gameKey g ∉ p.2) : PInv (p.1 ++ [g], insert (gameKey g) p.2) := by
  obtain ⟨h1, h2⟩ := h
  constructor
  · rw [List.pairwise_append]
    refine ⟨h1, List.pairwise_singleton _ _, ?_⟩
    intro a ha b hb
    rw [List.mem_singleton.mp hb]
    intro hcon
    exact hfresh (hcon ▸ h2 a ha)
  · intro x hx
    rcases List.mem_append.mp hx with hx | hx
    · exact Finset.mem_insert_of_mem (h2 x hx)
    · rw [List.mem_singleton.mp hx]
      exact Finset.mem_insert_self _ _

theorem timeoutGo_inv (env : Env) (site : String) :
    ∀ (m c : ℕ) (p : List Game × Finset String), PInv p →
    PInv (timeoutGo env site m c p) := by
  intro m
  induction m with
  | zero => intro c p h; exact h
  | succ m2 ih =>
    intro c p h
    obtain ⟨rs, ex⟩ := p
    rw [timeoutGo]
    apply ih
    have hfresh := freshFrom_fresh (timeoutStem site) ex c
    exact PInv_append_fresh h _ hfresh

theorem backupGo_inv (env : Env) (site : String) :
    ∀ (m c : ℕ) (p : List Game × Finset String), PInv p →
    PInv (backupGo env site m c p).2 := by
  intro m
  induction m with
  | zero => intro c p h; exact h
  | succ m2 ih =>
    intro c p h
    obtain ⟨rs, ex⟩ := p
    rw [backupGo]
    apply ih
    have hfresh := freshFrom_fresh (backupStem site) ex c
    exact PInv_append_fresh h _ hfresh

theorem backupAll_pairwise (env : Env) :
    (backupAll env).Pairwise (fun a b => gameKey a ≠ gameKey b) := by
  rw [backupAll]
  have hgen : ∀ (l : List String) (acc : ℕ × (List Game × Finset String)), PInv acc.2 →
      PInv (l.foldl (fun acc site =>
        let r := backupGo env site (TARGET site) acc.1 acc.2
        (r.1, r.2)) acc).2 := by
    intro l
    induction l with
    | nil => intro acc h; exact h
    | cons s l2 ih =>
      intro acc h
      exact ih _ (backupGo_inv env s _ _ _ h)
  exact (hgen SITES (1, ([], ∅)) ⟨List.Pairwise.nil, by simp⟩).1

theorem runStep_inv (env : Env) (conc : ℕ) (deadline : ℤ) (st : RunState) (k : ℕ)
    (site : String) (hf : env.fault site = false) (h : RInv st) :
    RInv (runStep env conc deadline st k site) := by
  rw [runStep]
  by_cases hc : env.checkTime k ≥ deadline
  · rw [if_pos hc]
    exact timeoutGo_inv env site _ _ _ h
  · rw [if_neg hc]
    obtain ⟨h1, h2⟩ := h
    have hsc := scrape_site_inv env site (TARGET site) conc deadline st.existing hf
    obtain ⟨p1, p2, p3⟩ := hsc
    constructor
    · rw [List.pairwise_append]
      refine ⟨h1, p1, ?_⟩
      intro a ha b hb
      intro hcon
      exact (p2 b hb).2 (hcon ▸ h2 a ha)
    · intro x hx
      rcases List.mem_append.mp hx with hx | hx
      · exact p3 (h2 x hx)
      · exact (p2 x hx).1

theorem run_pairwise (env : Env) (timeout : ℤ) (conc : ℕ)
    (hf : ∀ s, env.fault s = false) :
    (run env timeout conc).results.Pairwise (fun a b => gameKey a ≠ gameKey b) := by
  rw [run]
  by_cases hrf : env.runFault
  · rw [if_pos hrf]
    exact backupAll_pairwise env
  · rw [if_neg hrf]
    have hgen : ∀ (l : List (ℕ × String)) (st : RunState), RInv st →
        RInv (l.foldl (fun st p => runStep env conc (env.startTime + timeout) st p.1 p.2) st) := by
      intro l
      induction l with
      | nil => intro st h; exact h
      | cons p l2 ih =>
        intro st h
        exact ih _ (runStep_inv env conc _ st p.1 p.2 (hf p.2) h)
    exact (hgen SITES.enum ⟨[], ∅, []⟩ ⟨List.Pairwise.nil, by simp⟩).1

/- ============ timeout-path shape ============ -/

theorem timeoutGo_shape (env : Env) (site : String) :
    ∀ (m c : ℕ) (rs : List Game) (ex : Finset String),
    ∃ (chunk : List Game) (ex2 : Finset String),
      timeoutGo env site m c (rs, ex) = (rs ++ chunk, ex2) ∧ chunk.length = m ∧
      ∀ g ∈ chunk, ∃ n, g.name = timeoutStem site ++ natStr n := by
  intro m
  induction m with
  | zero => intro c rs ex; exact ⟨[], ex, by simp [timeoutGo], rfl, by simp⟩
  | succ m2 ih =>
    intro c rs ex
    rw [timeoutGo]
    set c2 := freshFrom (timeoutStem site) ex (ex.card + 1) c with hc2
    rcases ih (c2 + 1) (rs ++ [mkTimeoutGame env site c2])
      (insert (normalize_game_name (timeoutStem site ++ natStr c2)) ex) with
      ⟨chunk, ex2, heq, hlen, hnames⟩
    refine ⟨mkTimeoutGame env site c2 :: chunk, ex2, ?_, by simp [hlen], ?_⟩
    · rw [heq]
      simp
    · intro g hg
      rcases List.mem_cons.mp hg with hg | hg
      · exact ⟨c2, by rw [hg]; rfl⟩
      · exact hnames g hg

/- ============ fetch behavior ============ -/

theorem fetchGo_spec (oracle : ℕ → FetchOutcome) :
    ∀ r a, (fetchGo oracle r a).attempts ≤ r ∧
      ((∀ k, k < r → ∀ b, oracle (a + k) ≠ .ok b) → (fetchGo oracle r a).content = none) ∧
      (fetchGo oracle r a).sleeps.length ≤ r ∧
      (∀ k, k < (fetchGo oracle r a).sleeps.length →
        (fetchGo oracle r a).sleeps.getD k 0 =
          match oracle (a + k) with
          | .rateLimited => 3 * (((a + k : ℕ) : ℤ) + 1)
          | .timedOut => 2
          | _ => 1) := by
  intro r
  induction r with
  | zero =>
    intro a
    refine ⟨by simp [fetchGo], fun _ => rfl, by simp [fetchGo], ?_⟩
    intro k hk
    simp [fetchGo] at hk
  | succ r2 ih =>
    intro a
    rcases horacle : oracle a with b | _ | _ | _ | _
    · refine ⟨?_, ?_, ?_, ?_⟩
      · simp only [fetchGo, horacle]
        omega
      · intro hnone
        exact absurd horacle (by simpa using hnone 0 (by omega) b)
      · simp [fetchGo, horacle]
      · intro k hk
        simp [fetchGo, horacle] at hk
    all_goals {
      obtain ⟨ih1, ih2, ih3, ih4⟩ := ih (a + 1)
      refine ⟨?_, ?_, ?_, ?_⟩
      · simp only [fetchGo, horacle]
        omega
      · intro hnone
        simp only [fetchGo, horacle]
        apply ih2
        intro k hk b2
        have := hnone (k + 1) (by omega) b2
        rw [show a + 1 + k = a + (k + 1) by omega]
        exact this
      · simp only [fetchGo, horacle, List.length_cons]
        omega
      · intro k hk
        simp only [fetchGo, horacle, List.length_cons] at hk ⊢
        cases k with
        | zero =>
          simp [horacle]
        | succ k2 =>
          have hk2 : k2 < (fetchGo oracle r2 (a + 1)).sleeps.length := by
            simpa using Nat.lt_of_succ_lt_succ hk
          have := ih4 k2 hk2
          simp only [List.getD_cons_succ]
          rw [this]
          rw [show a + 1 + k2 = a + (k2 + 1) by omega]
    }

/- ============ example environments used by witnesses and counterexamples ============ -/

/-- C1 (amended).  The per-source orchestrator returns a list of length
exactly the configured quota whenever it either takes the fault path or seed
discovery returns at least one seed URL; when no fault occurs and discovery
returns zero seeds it instead returns the empty list, not a quota of
synthetic records. -/
theorem c1_amended (env : Env) (site : String) (target conc : ℕ) (deadline : ℤ)
    (ex0 : Finset String)
    (hsite : site = "steam" ∨ site = "gog" ∨ site = "gmg") :
    ((env.fault site = true ∨ env.seeds site ≠ []) →
      (scrape_site env site target conc deadline ex0).1.length = target) ∧
    (env.fault site = false ∧ env.seeds site = [] →
      (scrape_site env site target conc deadline ex0).1 = []) := by
  have hk : knownSite site = true := by
    rcases hsite with h | h | h <;> simp [knownSite, h]
  constructor
  · intro hcase
    rcases hcase with hf | hs
    · rw [scrape_site_fault_eq env site target conc deadline ex0 hf]
      exact fallbackList_length env site target
    · exact scrape_site_length env site target conc deadline ex0 hk hs
  · intro ⟨hf, hs⟩
    rw [scrape_site_empty_eq env site target conc deadline ex0 hf hs]

/-- C1 (counterexample).  With zero seeds discovered for gog and no fault,
scrape_site with the configured quota 80 returns a list that does not have
length 80: the claimed unconditional postcondition fails. -/
theorem c1_counterexample : (scrape_site envNoSeeds "gog" 80 20 1 ∅).1.length ≠ 80 := by
  decide

/-- C1 (witness). -/
theorem c1_witness :
    (("steam" : String) = "steam" ∨ ("steam" : String) = "gog" ∨ ("steam" : String) = "gmg") ∧
    (envOneSeed.fault "steam" = true ∨ envOneSeed.seeds "steam" ≠ []) ∧
    (scrape_site envOneSeed "steam" 3 1 5 ∅).1.length = 3 ∧
    (envNoSeeds.fault "gog" = false ∧ envNoSeeds.seeds "gog" = []) ∧
    (scrape_site envNoSeeds "gog" 80 20 5 ∅).1 = [] :=
  ⟨Or.inl rfl,
   Or.inr (by decide),
   (c1_amended envOneSeed "steam" 3 1 5 ∅ (Or.inl rfl)).1 (Or.inr (by decide)),
   ⟨rfl, rfl⟩,
   (c1_amended envNoSeeds "gog" 80 20 5 ∅ (Or.inr (Or.inl rfl))).2 ⟨rfl, rfl⟩⟩

/-- C2 (amended).  If seed discovery returns zero seed URLs for a source and
no fault occurs, the orchestrator returns the empty list at once and leaves
the shared index untouched; it does not proceed to synthetic backfill and
does not meet the quota. -/
theorem c2_amended (env : Env) (site : String) (target conc : ℕ) (deadline : ℤ)
    (ex0 : Finset String) (hf : env.fault site = false) (hs : env.seeds site = []) :
    scrape_site env site target conc deadline ex0 = ([], ex0) :=
  scrape_site_empty_eq env site target conc deadline ex0 hf hs

/-- C2 (counterexample).  With zero seeds for steam and quota 80 the
orchestrator returns a list whose length is not the quota, refuting that it
would backfill an all-synthetic quota from an empty accepted set. -/
theorem c2_counterexample : (scrape_site envNoSeeds "steam" 80 20 1 ∅).1.length ≠ 80 := by
  decide

/-- C2 (witness). -/
theorem c2_witness :
    envNoSeeds.fault "steam" = false ∧ envNoSeeds.seeds "steam" = [] ∧
    scrape_site envNoSeeds "steam" 80 20 1 ∅ = ([], ∅) :=
  ⟨rfl, rfl, c2_amended envNoSeeds "steam" 80 20 1 ∅ rfl rfl⟩

/-- C3 (amended).  money_to_float parses the dollar form and the bare comma
form as the spec says, and unparsable strings give none; but when both comma
and dot are present the commas are simply deleted, so the input 1.234,56
yields 1.23456, not 1234.56. -/
theorem c3_amended :
    money_to_float "$19.99" = some (19.99 : ℚ) ∧
    money_to_float "1.234,56" = some (1.23456 : ℚ) ∧
    money_to_float "19,99" = some (19.99 : ℚ) ∧
    money_to_float "abc" = none ∧
    money_to_float "1.2.3" = none := by
  refine ⟨?_, ?_, ?_, by decide, by decide⟩
  · have h : money_to_float "$19.99" =
        some (((19 : ℕ) : ℚ) + ((99 : ℕ) : ℚ) / (10 : ℚ) ^ (2 : ℕ)) := rfl
    rw [h]
    norm_num
  · have h : money_to_float "1.234,56" =
        some (((1 : ℕ) : ℚ) + ((23456 : ℕ) : ℚ) / (10 : ℚ) ^ (5 : ℕ)) := rfl
    rw [h]
    norm_num
  · have h : money_to_float "19,99" =
        some (((19 : ℕ) : ℚ) + ((99 : ℕ) : ℚ) / (10 : ℚ) ^ (2 : ℕ)) := rfl
    rw [h]
    norm_num

/-- C3 (counterexample).  On the input 1.234,56 the code removes the commas
and parses 1.23456, so the spec value 1234.56 is not returned. -/
theorem c3_counterexample : money_to_float "1.234,56" ≠ some (1234.56 : ℚ) := by
  have h : money_to_float "1.234,56" =
      some (((1 : ℕ) : ℚ) + ((23456 : ℕ) : ℚ) / (10 : ℚ) ^ (5 : ℕ)) := rfl
  rw [h]
  intro hcon
  rw [Option.some_inj] at hcon
  norm_num at hcon

/-- C4.  Name normalization lower-cases, strips the trademark and punctuation
symbols and collapses whitespace, so the two spellings of the example title
normalize identically. -/
theorem c4_normalization_example :
    normalize_game_name "The Witcher 3™" = normalize_game_name "the witcher 3" := by
  decide

/-- C5.  When the shared deadline has already elapsed at the check that
precedes a source, the run loop does not invoke the orchestrator for it (so
no fetch or extract operation happens for that source) and instead appends
exactly the quota of synthetic timeout records for that source. -/
theorem c5_deadline_skip (env : Env) (conc : ℕ) (deadline : ℤ) (st : RunState)
    (k : ℕ) (site : String) (h : env.checkTime k ≥ deadline) :
    (runStep env conc deadline st k site).invoked = st.invoked ∧
    (runStep env conc deadline st k site).results.length =
      st.results.length + TARGET site ∧
    ∃ chunk, (runStep env conc deadline st k site).results = st.results ++ chunk ∧
      ∀ g ∈ chunk, ∃ n, g.name = timeoutStem site ++ natStr n := by
  rw [runStep, if_pos h]
  rcases timeoutGo_shape env site (TARGET site) 1 st.results st.existing with
    ⟨chunk, ex2, heq, hlen, hnames⟩
  rw [heq]
  exact ⟨rfl, by simp [hlen], chunk, rfl, hnames⟩

/-- C5 (witness). -/
theorem c5_witness :
    envLate.checkTime 0 ≥ (5 : ℤ) ∧
    (runStep envLate 1 5 ⟨[], ∅, []⟩ 0 "steam").invoked = [] ∧
    (runStep envLate 1 5 ⟨[], ∅, []⟩ 0 "steam").results.length = 80 :=
  ⟨by decide,
   (c5_deadline_skip envLate 1 5 ⟨[], ∅, []⟩ 0 "steam" (by decide)).1,
   (c5_deadline_skip envLate 1 5 ⟨[], ∅, []⟩ 0 "steam" (by decide)).2.1⟩

/-- C6 (amended).  In a run in which no source takes the fault-fallback path
of the orchestrator, no two records of the concatenated output share a
normalized identity; the fallback path does not consult the shared index, so
a faulting source can emit a duplicate of an identity harvested elsewhere. -/
theorem c6_amended (env : Env) (timeout : ℤ) (conc : ℕ)
    (hf : ∀ s, env.fault s = false) :
    (run env timeout conc).results.Pairwise (fun a b => gameKey a ≠ gameKey b) :=
  run_pairwise env timeout conc hf

set_option maxRecDepth 100000 in
set_option maxHeartbeats 1000000 in
/-- C6 (counterexample).  In the duplicate-identity scenario the run output
contains the identity of the title Juego GOG number 1 twice, once from a
harvested steam record and once from the gog fault fallback, refuting the
claim for the full output of a run. -/
theorem c6_counterexample :
    ¬ ((run envDup 1 30).results.Pairwise (fun a b => gameKey a ≠ gameKey b)) := by
  intro hp
  have hnd : ((run envDup 1 30).results.map gameKey).Pairwise (fun a b => a ≠ b) :=
    (List.pairwise_map).mpr hp
  have hdup : (((run envDup 1 30).results.map gameKey)[0]? = some "juego gog #1") ∧
      (((run envDup 1 30).results.map gameKey)[80]? = some "juego gog #1") := by
    decide
  have hlt : 0 < ((run envDup 1 30).results.map gameKey).length := by
    rcases List.getElem?_eq_some.mp hdup.1 with ⟨hl, _⟩
    exact hl
  have : (0 : ℕ) = 80 := List.getElem?_inj hlt hnd (hdup.1.trans hdup.2.symm)
  simp at this

/-- C6 (witness). -/
theorem c6_witness :
    (∀ s, envNoSeeds.fault s = false) ∧
    (run envNoSeeds 1 1).results.Pairwise (fun a b => gameKey a ≠ gameKey b) :=
  ⟨fun _ => rfl, c6_amended envNoSeeds 1 1 (fun _ => rfl)⟩

/-- C7.  The fetch model makes at most five attempts, returns no content
after exhausting all attempts without a success, sleeps at most five times,
and each sleep is the linear backoff 3 * (attempt + 1) after a rate-limit
outcome, 2 after a timeout, and 1 after any other failure. -/
theorem c7_fetch_policy (oracle : ℕ → FetchOutcome) :
    (fetch oracle).attempts ≤ 5 ∧
    ((∀ k, k < 5 → ∀ b, oracle k ≠ .ok b) → (fetch oracle).content = none) ∧
    (fetch oracle).sleeps.length ≤ 5 ∧
    (∀ k, k < (fetch oracle).sleeps.length →
      (fetch oracle).sleeps.getD k 0 =
        match oracle k with
        | .rateLimited => 3 * ((k : ℤ) + 1)
        | .timedOut => 2
        | _ => 1) := by
  obtain ⟨h1, h2, h3, h4⟩ := fetchGo_spec oracle 5 0
  refine ⟨h1, ?_, h3, ?_⟩
  · intro h
    apply h2
    intro k hk b
    simpa using h k hk b
  · intro k hk
    have := h4 k hk
    simpa using this

/-- C7 (witness). -/
theorem c7_witness :
    (∀ k, k < 5 → ∀ b, (fun _ => FetchOutcome.timedOut) k ≠ FetchOutcome.ok b) ∧
    (fetch (fun _ => FetchOutcome.timedOut)).content = none ∧
    1 < (fetch (fun _ => FetchOutcome.timedOut)).sleeps.length ∧
    (fetch (fun _ => FetchOutcome.timedOut)).sleeps.getD 1 0 = 2 :=
  ⟨fun _ _ b h => FetchOutcome.noConfusion h,
   (c7_fetch_policy (fun _ => FetchOutcome.timedOut)).2.1
     (fun _ _ b h => FetchOutcome.noConfusion h),
   by decide,
   (c7_fetch_policy (fun _ => FetchOutcome.timedOut)).2.2.2 1 (by decide)⟩

/-- C8.  A fault at the orchestrator boundary never escapes: the except
branch returns a fully synthetic list of exactly the quota of records, each
named after the fallback pattern for that source. -/
theorem c8_fault_fallback (env : Env) (site : String) (target conc : ℕ)
    (deadline : ℤ) (ex0 : Finset String) (h : env.fault site = true) :
    (scrape_site env site target conc deadline ex0).1.length = target ∧
    ∀ g ∈ (scrape_site env site target conc deadline ex0).1,
      ∃ i, g.name = "Juego " ++ pyUpper site ++ " #" ++ natStr (i + 1) := by
  rw [scrape_site_fault_eq env site target conc deadline ex0 h]
  refine ⟨fallbackList_length env site target, ?_⟩
  intro g hg
  rcases List.mem_map.mp hg with ⟨i, _, rfl⟩
  exact ⟨i, rfl⟩

/-- C8 (witness). -/
theorem c8_witness :
    envFault.fault "steam" = true ∧
    (scrape_site envFault "steam" 4 1 5 ∅).1.length = 4 :=
  ⟨rfl, (c8_fault_fallback envFault "steam" 4 1 5 ∅ rfl).1⟩

/-- C9.  Name normalization is idempotent: applying normalize_game_name
twice gives the same string as applying it once, for every input string. -/
theorem c9_normalize_idempotent (s : String) :
    normalize_game_name (normalize_game_name s) = normalize_game_name s :=
  normalize_game_name_idem s

/-- C9 (witness). -/
theorem c9_witness :
    normalize_game_name (normalize_game_name "  The  WITCHER 3™  ") =
      normalize_game_name "  The  WITCHER 3™  " :=
  c9_normalize_idempotent "  The  WITCHER 3™  "

/-- C10.  On the fault-fallback path the orchestrator returns the shared
dedup index unchanged, so the fallback identities are neither checked
against nor added to it; off the fault path every returned record has its
identity registered in the returned index. -/
theorem c10_fallback_frame (env : Env) (site : String) (target conc : ℕ)
    (deadline : ℤ) (ex0 : Finset String) :
    (env.fault site = true →
      (scrape_site env site target conc deadline ex0).2 = ex0) ∧
    (env.fault site = false →
      ∀ g ∈ (scrape_site env site target conc deadline ex0).1,
        gameKey g ∈ (scrape_site env site target conc deadline ex0).2) := by
  constructor
  · intro h
    rw [scrape_site_fault_eq env site target conc deadline ex0 h]
  · intro h g hg
    exact ((scrape_site_inv env site target conc deadline ex0 h).2.1 g hg).1

/-- C10 (witness). -/
theorem c10_witness :
    (envFault.fault "gog" = true ∧ (scrape_site envFault "gog" 4 1 5 ∅).2 = ∅) ∧
    (envOneSeed.fault "gog" = false ∧
      ∀ g ∈ (scrape_site envOneSeed "gog" 2 1 5 ∅).1,
        gameKey g ∈ (scrape_site envOneSeed "gog" 2 1 5 ∅).2) :=
  ⟨⟨rfl, (c10_fallback_frame envFault "gog" 4 1 5 ∅).1 rfl⟩,
   ⟨rfl, (c10_fallback_frame envOneSeed "gog" 2 1 5 ∅).2 rfl⟩⟩
